import Mathlib

/-!
Verification development for a personal ledger program (an indexed record
store).  The definitions below are a shallow embedding of the program's core
component (`Account` in `account.py`): an in-memory record collection with a
month index and a category index, validated insertion, persistence with a
`.bak` sibling copy, index-assisted range/category queries and a signed
total.  Dates are modelled as year/month/day triples of naturals; the
program's date type guarantees calendar validity, which is expressed here by
the predicates `Date.MDValid` / `Date.Valid`.  Amounts are modelled as
rationals (the program uses exact decimal-looking magnitudes).
-/

namespace Ledger

/-- Calendar date, modelling the fields of the program's date values. -/
structure Date where
  year : Nat
  month : Nat
  day : Nat
deriving DecidableEq

/-- Days in a calendar month, with the Gregorian leap-year rule. -/
def daysInMonth (y m : Nat) : Nat :=
  if m = 2 then
    if (y % 4 = 0 ∧ y % 100 ≠ 0) ∨ y % 400 = 0 then 29 else 28
  else if m = 4 ∨ m = 6 ∨ m = 9 ∨ m = 11 then 30
  else 31

/-- Month/day validity of a date (month in 1..12, day in 1..days of month). -/
def Date.MDValid (d : Date) : Prop :=
  1 ≤ d.month ∧ d.month ≤ 12 ∧ 1 ≤ d.day ∧ d.day ≤ daysInMonth d.year d.month

instance (d : Date) : Decidable (Date.MDValid d) :=
  decidable_of_iff
    (1 ≤ d.month ∧ d.month ≤ 12 ∧ 1 ≤ d.day ∧ d.day ≤ daysInMonth d.year d.month)
    Iff.rfl

/-- Full validity: what the program's date type guarantees (year 1..9999
together with month/day validity). -/
def Date.Valid (d : Date) : Prop :=
  1 ≤ d.year ∧ d.year ≤ 9999 ∧ d.MDValid

instance (d : Date) : Decidable (Date.Valid d) :=
  decidable_of_iff (1 ≤ d.year ∧ d.year ≤ 9999 ∧ d.MDValid) Iff.rfl

/-- Date ordering: lexicographic on (year, month, day), as in the program's
date comparisons. -/
def Date.le (a b : Date) : Prop :=
  a.year < b.year ∨
    (a.year = b.year ∧
      (a.month < b.month ∨ (a.month = b.month ∧ a.day ≤ b.day)))

instance (a b : Date) : Decidable (Date.le a b) :=
  decidable_of_iff
    (a.year < b.year ∨
      (a.year = b.year ∧
        (a.month < b.month ∨ (a.month = b.month ∧ a.day ≤ b.day))))
    Iff.rfl

/-- Boolean form of the date ordering, used inside filters. -/
def Date.leb (a b : Date) : Bool :=
  decide (Date.le a b)

/-- One ledger entry (`Record` in the source): date, category, amount,
description. -/
structure Record where
  date : Date
  category : String
  amount : Rat
  description : String
deriving DecidableEq

/-- A "YYYY-MM" month-bucket key, modelled as the (year, month) pair
(`record.date.strftime("%Y-%m")` is injective on valid dates). -/
abbrev YM := Nat × Nat

/-- The month key of a date. -/
def ym (d : Date) : YM := (d.year, d.month)

/-- The month index: insertion-ordered mapping from month keys to
insertion-ordered buckets of records (a Python dict of lists). -/
abbrev DateIndex := List (YM × List Record)

/-- The category index: the source initializes a dict with exactly the two
keys 收入 and 支出 and never adds keys, so it is modelled as a pair of
buckets. -/
structure CategoryIndex where
  income : List Record
  expense : List Record
deriving DecidableEq

/-- Append a record to the bucket of key `k`, creating the bucket at the end
when the key is absent (Python dict insertion-order semantics of
`if ym not in index: index[ym] = []` followed by `index[ym].append`). -/
def appendAt (m : DateIndex) (k : YM) (r : Record) : DateIndex :=
  match m with
  | [] => [(k, [r])]
  | (k2, b) :: t =>
    if k2 = k then (k2, b ++ [r]) :: t else (k2, b) :: appendAt t k r

/-- Bucket lookup, returning `[]` for an absent key. -/
def getBucket (m : DateIndex) (k : YM) : List Record :=
  match m with
  | [] => []
  | (k2, b) :: t => if k2 = k then b else getBucket t k

/-- Key membership test (`ym in self.date_index`). -/
def hasKey (m : DateIndex) (k : YM) : Bool :=
  match m with
  | [] => false
  | (k2, _) :: t => if k2 = k then true else hasKey t k

/-- The month-index update performed for one record inside
`_build_indexes` / `add_record`. -/
def dateStep (m : DateIndex) (r : Record) : DateIndex :=
  appendAt m (ym r.date) r

/-- The category-index update performed for one record:
`if record.category in self.category_index: append` — the dict has exactly
the keys 收入 and 支出. -/
def catStep (ci : CategoryIndex) (r : Record) : CategoryIndex :=
  if r.category = "收入" then { ci with income := ci.income ++ [r] }
  else if r.category = "支出" then { ci with expense := ci.expense ++ [r] }
  else ci

/-- One step of the single loop in `_build_indexes`, updating both indexes. -/
def indexStep (p : DateIndex × CategoryIndex) (r : Record) :
    DateIndex × CategoryIndex :=
  (dateStep p.1 r, catStep p.2 r)

/-- `_build_indexes`: one full pass over the records, starting from an empty
month index and a category index with two empty buckets. -/
def build_indexes (rs : List Record) : DateIndex × CategoryIndex :=
  rs.foldl indexStep ([], { income := [], expense := [] })

/-- The month index a full replay of the record sequence rebuilds. -/
def buildDateIndex (rs : List Record) : DateIndex :=
  rs.foldl dateStep []

/-- The category index a full replay of the record sequence rebuilds. -/
def buildCatIndex (rs : List Record) : CategoryIndex :=
  rs.foldl catStep { income := [], expense := [] }

/-- One record of the persisted file: the `date` field is a string and may be
absent; the remaining fields are as in the file-format contract. -/
structure RawRecord where
  dateStr : Option String
  category : String
  amount : Rat
  description : String
deriving DecidableEq

/-- State of the backing file: absent, present but not parsable as the
container format, or a parsed sequence of raw records. -/
inductive FileState where
  | absent
  | unparsable
  | parsed (records : List RawRecord)
deriving DecidableEq

/-- The slice of the file system the store touches: the backing file and its
`.bak` sibling. -/
structure FS where
  file : FileState
  bak : FileState
deriving DecidableEq

/-- ASCII-digit test on a character (`\d` of the strict date parser). -/
def isDigitC (c : Char) : Bool :=
  decide (48 ≤ c.toNat) && decide (c.toNat ≤ 57)

/-- Numeric value of an ASCII digit character. -/
def digitVal (c : Char) : Nat := c.toNat - 48

/-- ASCII digit character of a value below 10. -/
def digitChar (n : Nat) : Char := Char.ofNat (48 + n)

/-- Split a character list at every `-`, Python `str.split("-")`. -/
def splitDash : List Char → List (List Char)
  | [] => [[]]
  | c :: rest =>
    if c = '-' then [] :: splitDash rest
    else
      match splitDash rest with
      | [] => [[c]]
      | g :: gs => (c :: g) :: gs

/-- The `%Y` segment of strict date parsing: exactly four digits. -/
def parseYear : List Char → Option Nat
  | [a, b, c, d] =>
    if isDigitC a = true ∧ isDigitC b = true ∧ isDigitC c = true ∧ isDigitC d = true then
      some (digitVal a * 1000 + digitVal b * 100 + digitVal c * 10 + digitVal d)
    else none
  | _ => none

/-- The `%m` / `%d` segment of strict date parsing: one digit with value
1..9, or two digits with value 1..`hi` (`hi` is 12 for months, 31 for
days). -/
def parseSeg (hi : Nat) (cs : List Char) : Option Nat :=
  match cs with
  | [a] =>
    if isDigitC a = true ∧ 1 ≤ digitVal a then some (digitVal a) else none
  | [a, b] =>
    if isDigitC a = true ∧ isDigitC b = true ∧
        1 ≤ digitVal a * 10 + digitVal b ∧ digitVal a * 10 + digitVal b ≤ hi then
      some (digitVal a * 10 + digitVal b)
    else none
  | _ => none

/-- Strict `YYYY-MM-DD` parsing (`strptime(s, "%Y-%m-%d")` followed by the
date constructor's calendar validation): the whole string must consist of
exactly three dash-separated segments, and the result must be a valid
calendar date. -/
def parseDate (s : String) : Option Date :=
  match splitDash s.toList with
  | [ys, ms, ds] =>
    match parseYear ys, parseSeg 12 ms, parseSeg 31 ds with
    | some y, some m, some d =>
      if 1 ≤ y ∧ d ≤ daysInMonth y m then
        some { year := y, month := m, day := d }
      else none
    | _, _, _ => none
  | _ => none

/-- Two-digit zero-padded rendering (`%m`, `%d`). -/
def pad2 (n : Nat) : List Char := [digitChar (n / 10 % 10), digitChar (n % 10)]

/-- Four-digit zero-padded rendering (`%Y`). -/
def pad4 (n : Nat) : List Char :=
  [digitChar (n / 1000 % 10), digitChar (n / 100 % 10),
   digitChar (n / 10 % 10), digitChar (n % 10)]

/-- `date.strftime("%Y-%m-%d")`. -/
def formatDate (d : Date) : String :=
  String.mk (pad4 d.year ++ '-' :: (pad2 d.month ++ '-' :: pad2 d.day))

/-- Serialization of one record for the persisted file. -/
def serializeRecord (r : Record) : RawRecord :=
  { dateStr := some (formatDate r.date), category := r.category,
    amount := r.amount, description := r.description }

/-- Serialization of the full collection (`save_records`'s records_data). -/
def serialize (rs : List Record) : List RawRecord :=
  rs.map serializeRecord

/-- The per-record loop of `load_records`: a record whose `date` field is
missing or fails strict parsing is skipped (with a logged warning); the rest
become entries in order. -/
def parseRawRecords : List RawRecord → List Record
  | [] => []
  | rr :: rest =>
    match rr.dateStr with
    | none => parseRawRecords rest
    | some s =>
      match parseDate s with
      | none => parseRawRecords rest
      | some d =>
        { date := d, category := rr.category, amount := rr.amount,
          description := rr.description } :: parseRawRecords rest

/-- `load_records`: an absent file and an unparsable container both yield the
empty collection (never an error); a parsed container yields the per-record
loop's result.  The function is total: load never raises to its caller. -/
def load_records (f : FileState) : List Record :=
  match f with
  | .absent => []
  | .unparsable => []
  | .parsed rds => parseRawRecords rds

/-- The store (`Account`): the record collection and the two derived
indexes. -/
structure Account where
  records : List Record
  date_index : DateIndex
  category_index : CategoryIndex
deriving DecidableEq

/-- `Account.__init__`: load the records from the backing file and build both
indexes in one pass. -/
def Account.init (f : FileState) : Account :=
  let rs := load_records f
  let idx := build_indexes rs
  { records := rs, date_index := idx.1, category_index := idx.2 }

/-- `save_records`: write the serialized collection to the backing file; the
file now exists, so the just-written file is then copied onto the `.bak`
sibling. -/
def save_records (a : Account) (_fs : FS) : FS :=
  let content := FileState.parsed (serialize a.records)
  { file := content, bak := content }

/-- `add_record`: validation errors (unrecognized category, non-positive
amount) are raised before any mutation — modelled by `Except.error`, which
carries no new state, so the caller keeps the unchanged store and file.  On
success the record is appended to the collection and to both index buckets,
and the full collection is saved.  (The source messages quote the two
category names; the quotes are omitted here.) -/
def add_record (a : Account) (fs : FS) (date : Date) (category : String)
    (amount : Rat) (description : String) : Except String (Account × FS) :=
  if ¬(category = "收入" ∨ category = "支出") then
    Except.error "类别必须是收入或支出"
  else if amount ≤ 0 then
    Except.error "金额必须为正数"
  else
    let new_record : Record :=
      { date := date, category := category, amount := amount,
        description := description }
    let a2 : Account :=
      { records := a.records ++ [new_record],
        date_index := appendAt a.date_index (ym date) new_record,
        category_index := catStep a.category_index new_record }
    Except.ok (a2, save_records a2 fs)

/-- One add request, as issued by a caller of `add_record`. -/
structure AddReq where
  date : Date
  category : String
  amount : Rat
  description : String

/-- Issue one add request against a store/file pair; a raised validation
error leaves the caller's state unchanged. -/
def applyAdd (st : Account × FS) (req : AddReq) : Account × FS :=
  match add_record st.1 st.2 req.date req.category req.amount req.description with
  | .ok st2 => st2
  | .error _ => st

/-- Issue a sequence of add requests. -/
def applyAdds (st : Account × FS) (reqs : List AddReq) : Account × FS :=
  reqs.foldl applyAdd st

/-- Index of a month key on the time line. -/
def ymIdx (d : Date) : Nat := d.year * 12 + d.month

/-- First day of the month after `c`'s month, with year rollover
(`datetime.date(year, month, 1)` of the query loop). -/
def nextMonthFirst (c : Date) : Date :=
  if c.month + 1 > 12 then { year := c.year + 1, month := 1, day := 1 }
  else { year := c.year, month := c.month + 1, day := 1 }

/-- The month-key enumeration loop of `query_records`
(`while current <= end_date`), with fuel equal to the month distance, which
is exactly the number of iterations the source loop performs. -/
def monthKeysAux : Nat → Date → Date → List YM
  | 0, _, _ => []
  | fuel + 1, current, e =>
    if Date.leb current e = true then
      ym current :: monthKeysAux fuel (nextMonthFirst current) e
    else []

/-- All month keys from the month of `s` through the month of `e`. -/
def monthKeys (s e : Date) : List YM :=
  monthKeysAux (ymIdx e + 1 - ymIdx s) s e

/-- `query_records`: optional category narrowing (only for a truthy,
recognized category), then — when both bounds are given — candidates drawn
from the global month index over the enumerated month keys, then the final
per-entry date filter. -/
def query_records (a : Account) (start_date end_date : Option Date)
    (category : Option String) : List Record :=
  let results := a.records
  let results :=
    match category with
    | some c =>
      if ¬c = "" ∧ (c = "收入" ∨ c = "支出") then
        if c = "收入" then a.category_index.income else a.category_index.expense
      else results
    | none => results
  match start_date, end_date with
  | none, none => results
  | _, _ =>
    let filtered :=
      match start_date, end_date with
      | some s, some e =>
        (monthKeys s e).foldl
          (fun acc k =>
            if hasKey a.date_index k = true then acc ++ getBucket a.date_index k
            else acc)
          []
      | _, _ => results
    filtered.filter fun r =>
      (match start_date with
       | some s => Date.leb s r.date
       | none => true) &&
      (match end_date with
       | some e => Date.leb r.date e
       | none => true)

/-- `record.category != category` guard of `calculate_total`: skip exactly
when the filter is truthy (given and non-empty) and does not match. -/
def filterSkip (category : Option String) (r : Record) : Bool :=
  match category with
  | some c => !(c == "") && !(r.category == c)
  | none => false

/-- `calculate_total`: one linear pass; income adds, expense subtracts,
anything else contributes nothing.  Pure: the store is not changed. -/
def calculate_total (a : Account) (category : Option String) : Rat :=
  a.records.foldl
    (fun total r =>
      if filterSkip category r then total
      else if r.category = "收入" then total + r.amount
      else if r.category = "支出" then total - r.amount
      else total)
    0

/-! ### Shared concrete sample data -/

/-- A store reachable by the program: constructed from a parsed backing file
holding one expense dated 2024-01-15 and one income dated 2024-03-10 (the
spec's running example). -/
def acct1 : Account :=
  Account.init (FileState.parsed
    [{ dateStr := some "2024-01-15", category := "支出", amount := 100,
       description := "a" },
     { dateStr := some "2024-03-10", category := "收入", amount := 200,
       description := "b" }])

/-- An empty file-system state. -/
def fs0 : FS := { file := FileState.absent, bak := FileState.absent }

/-! ### C1: the category filter is discarded when both date bounds are given -/

/-- C1: when both `startDate` and `endDate` are given, `query_records`
re-derives its candidates from the global month index, so the result does not
depend on the category argument at all; consequently there is a store and
such a query whose result contains an entry of a different category than the
requested one. -/
theorem claim_C1_category_discarded :
    (∀ (a : Account) (s e : Date) (c : Option String),
      query_records a (some s) (some e) c = query_records a (some s) (some e) none)
    ∧ ∃ r ∈ query_records acct1 (some ⟨2024, 1, 1⟩) (some ⟨2024, 12, 31⟩)
        (some "收入"), ¬r.category = "收入" := by
  constructor
  · intro a s e c
    cases c <;> rfl
  · decide

/-! ### C9: what the `.bak` sibling holds after a save -/

/-- A file-system state whose backing file holds a previous, different
content (an empty parsed container). -/
def fs9 : FS := { file := FileState.parsed [], bak := FileState.absent }

/-- C9 counterexample: after `save_records`, the `.bak` path does not hold
the backing file's pre-save content (here the pre-save content is an empty
container and the store is non-empty), refuting the claim as stated. -/
theorem claim_C9_counterexample :
    ¬(save_records acct1 fs9).bak = fs9.file := by
  decide

/-- C9 amended: the source copies the backing file to `.bak` after writing
it, so after every save the `.bak` sibling holds the just-written content —
identical to the post-save backing file, overwritten on each save — not the
pre-save content. -/
theorem claim_C9_amended (a : Account) (fs : FS) :
    (save_records a fs).bak = FileState.parsed (serialize a.records)
    ∧ (save_records a fs).bak = (save_records a fs).file :=
  ⟨rfl, rfl⟩

/-! ### C10: an unrecognized non-empty category never narrows a query -/

/-- C10: a non-empty category outside 收入/支出 fails the
`category in self.category_index` test, so the filter is silently ignored:
with no date bounds the whole collection is returned, and with date bounds
the result is the same as with no category filter. -/
theorem claim_C10_unrecognized_category_ignored (a : Account) (c : String)
    (_h1 : ¬c = "") (h2 : ¬c = "收入") (h3 : ¬c = "支出") :
    query_records a none none (some c) = a.records
    ∧ ∀ sd ed : Option Date,
        query_records a sd ed (some c) = query_records a sd ed none := by
  constructor
  · simp [query_records, h2, h3]
  · intro sd ed
    simp [query_records, h2, h3]

/-- C10 witness at concrete inputs. -/
theorem claim_C10_witness :
    query_records acct1 none none (some "Gift") = acct1.records
    ∧ query_records acct1 (some ⟨2024, 2, 1⟩) (some ⟨2024, 4, 1⟩) (some "Gift")
      = query_records acct1 (some ⟨2024, 2, 1⟩) (some ⟨2024, 4, 1⟩) none :=
  ⟨(claim_C10_unrecognized_category_ignored acct1 "Gift" (by decide) (by decide)
      (by decide)).1,
   (claim_C10_unrecognized_category_ignored acct1 "Gift" (by decide) (by decide)
      (by decide)).2 (some ⟨2024, 2, 1⟩) (some ⟨2024, 4, 1⟩)⟩

/-! ### C4: validation failures of `add_record` mutate nothing -/

/-- C4: `add_record` with an unrecognized category raises the category
validation error, and with a non-positive amount raises a validation error;
both are raised before any mutation, so the caller's store, indexes and file
state are exactly as before the call (`applyAdd` returns the old state and
no save is performed). -/
theorem claim_C4_validation_no_mutation (a : Account) (fs : FS) (d : Date)
    (c : String) (amt : Rat) (desc : String) :
    (¬(c = "收入" ∨ c = "支出") →
      add_record a fs d c amt desc = Except.error "类别必须是收入或支出"
      ∧ applyAdd (a, fs) ⟨d, c, amt, desc⟩ = (a, fs))
    ∧ (amt ≤ 0 →
      (∃ msg, add_record a fs d c amt desc = Except.error msg)
      ∧ applyAdd (a, fs) ⟨d, c, amt, desc⟩ = (a, fs)) := by
  have herr : ∀ msg, add_record a fs d c amt desc = Except.error msg →
      applyAdd (a, fs) ⟨d, c, amt, desc⟩ = (a, fs) := by
    intro msg h
    simp only [applyAdd] at *
    rw [h]
  constructor
  · intro h
    have e1 : add_record a fs d c amt desc = Except.error "类别必须是收入或支出" := by
      rw [add_record, if_pos h]
    exact ⟨e1, herr _ e1⟩
  · intro hamt
    by_cases hc : c = "收入" ∨ c = "支出"
    · have e2 : add_record a fs d c amt desc = Except.error "金额必须为正数" := by
        rw [add_record, if_neg (not_not_intro hc), if_pos hamt]
      exact ⟨⟨_, e2⟩, herr _ e2⟩
    · have e1 : add_record a fs d c amt desc = Except.error "类别必须是收入或支出" := by
        rw [add_record, if_pos hc]
      exact ⟨⟨_, e1⟩, herr _ e1⟩

/-- C4 witness: category `"Gift"`, and amounts `0` and `-5`, each fail with
a validation error and leave the state unchanged. -/
theorem claim_C4_witness :
    (add_record acct1 fs0 ⟨2024, 5, 1⟩ "Gift" 5 "x"
        = Except.error "类别必须是收入或支出"
      ∧ applyAdd (acct1, fs0) ⟨⟨2024, 5, 1⟩, "Gift", 5, "x"⟩ = (acct1, fs0))
    ∧ ((∃ msg, add_record acct1 fs0 ⟨2024, 5, 1⟩ "收入" 0 "x" = Except.error msg)
      ∧ applyAdd (acct1, fs0) ⟨⟨2024, 5, 1⟩, "收入", 0, "x"⟩ = (acct1, fs0))
    ∧ ((∃ msg, add_record acct1 fs0 ⟨2024, 5, 1⟩ "支出" (-5) "x" = Except.error msg)
      ∧ applyAdd (acct1, fs0) ⟨⟨2024, 5, 1⟩, "支出", (-5), "x"⟩ = (acct1, fs0)) :=
  ⟨(claim_C4_validation_no_mutation acct1 fs0 ⟨2024, 5, 1⟩ "Gift" 5 "x").1
      (by decide),
   (claim_C4_validation_no_mutation acct1 fs0 ⟨2024, 5, 1⟩ "收入" 0 "x").2
      (by norm_num),
   (claim_C4_validation_no_mutation acct1 fs0 ⟨2024, 5, 1⟩ "支出" (-5) "x").2
      (by norm_num)⟩

/-! ### C8: behavior of `load_records` -/

/-- The value one persisted record contributes on load, phrased with option
combinators: its (present) date string must parse, and then all four fields
are carried over. -/
def rawToRecord (rr : RawRecord) : Option Record :=
  (rr.dateStr.bind parseDate).map fun d =>
    { date := d, category := rr.category, amount := rr.amount,
      description := rr.description }

/-- The per-record load loop keeps exactly the records with a present,
strictly-parsable date field. -/
theorem parseRawRecords_eq_filterMap (rds : List RawRecord) :
    parseRawRecords rds = rds.filterMap rawToRecord := by
  induction rds with
  | nil => rfl
  | cons rr t ih =>
    cases hds : rr.dateStr with
    | none =>
      simp [parseRawRecords, hds, List.filterMap_cons, rawToRecord, ih]
    | some s =>
      cases hp : parseDate s with
      | none =>
        simp [parseRawRecords, hds, hp, List.filterMap_cons, rawToRecord, ih]
      | some d =>
        simp [parseRawRecords, hds, hp, List.filterMap_cons, rawToRecord, ih]

/-- C8: `load_records` is a total function (it never raises): an absent file
and an unparsable container both load as the empty collection; a parsed
container loads exactly the records whose `date` field is present and parses
strictly as `YYYY-MM-DD`, each offender being skipped while the load
continues; in particular one well-formed record plus one record missing
`date` load as exactly one entry. -/
theorem claim_C8_load_degrades_and_skips :
    load_records FileState.absent = []
    ∧ load_records FileState.unparsable = []
    ∧ (∀ rds : List RawRecord,
        load_records (FileState.parsed rds) = rds.filterMap rawToRecord)
    ∧ load_records (FileState.parsed
        [{ dateStr := some "2024-01-15", category := "支出", amount := 100,
           description := "x" },
         { dateStr := none, category := "收入", amount := 50,
           description := "y" }])
      = [{ date := ⟨2024, 1, 15⟩, category := "支出", amount := 100,
           description := "x" }] :=
  ⟨rfl, rfl, fun rds => parseRawRecords_eq_filterMap rds, by decide⟩

/-! ### C6: day-level soundness of every query result -/

/-- C6: every entry returned by `query_records` satisfies the given date
bounds — the final per-entry pass enforces `date >= startDate` and
`date <= endDate` regardless of month-bucket over-inclusion. -/
theorem claim_C6_day_level_soundness (a : Account) (sd ed : Option Date)
    (c : Option String) (r : Record)
    (hr : r ∈ query_records a sd ed c) :
    sd.all (fun s => Date.leb s r.date) = true
    ∧ ed.all (fun e => Date.leb r.date e) = true := by
  cases sd with
  | none =>
    cases ed with
    | none => exact ⟨rfl, rfl⟩
    | some e =>
      simp only [query_records] at hr
      rw [List.mem_filter] at hr
      obtain ⟨-, hp⟩ := hr
      simp only [Bool.and_eq_true] at hp
      exact ⟨rfl, by simpa using hp.2⟩
  | some s =>
    cases ed with
    | none =>
      simp only [query_records] at hr
      rw [List.mem_filter] at hr
      obtain ⟨-, hp⟩ := hr
      simp only [Bool.and_eq_true] at hp
      exact ⟨by simpa using hp.1, rfl⟩
    | some e =>
      simp only [query_records] at hr
      rw [List.mem_filter] at hr
      obtain ⟨-, hp⟩ := hr
      simp only [Bool.and_eq_true] at hp
      exact ⟨by simpa using hp.1, by simpa using hp.2⟩

/-- The income record loaded into `acct1`. -/
def rec2 : Record := ⟨⟨2024, 3, 10⟩, "收入", 200, "b"⟩

/-- C6 witness at concrete inputs. -/
theorem claim_C6_witness :
    (some (⟨2024, 2, 1⟩ : Date)).all (fun s => Date.leb s rec2.date) = true
    ∧ (some (⟨2024, 4, 1⟩ : Date)).all (fun e => Date.leb rec2.date e) = true :=
  claim_C6_day_level_soundness acct1 (some ⟨2024, 2, 1⟩) (some ⟨2024, 4, 1⟩)
    none rec2 (by decide)

/-! ### C7: the signed total -/

/-- The signed contribution of one entry: income adds its amount, expense
subtracts it, anything else contributes nothing. -/
def signedValue (r : Record) : Rat :=
  if r.category = "收入" then r.amount
  else if r.category = "支出" then -r.amount
  else 0

/-- Whether an entry matches the optional category filter (an absent or
empty filter matches everything). -/
def matchesFilter (c : Option String) (r : Record) : Bool :=
  match c with
  | none => true
  | some s => (s == "") || (r.category == s)

theorem matchesFilter_eq_not_skip (c : Option String) (r : Record) :
    matchesFilter c r = !(filterSkip c r) := by
  cases c with
  | none => rfl
  | some s => simp [matchesFilter, filterSkip]

theorem calculate_total_go (c : Option String) (rs : List Record) (init : Rat) :
    rs.foldl
      (fun total r =>
        if filterSkip c r then total
        else if r.category = "收入" then total + r.amount
        else if r.category = "支出" then total - r.amount
        else total) init
    = init + ((rs.filter (matchesFilter c)).map signedValue).sum := by
  induction rs generalizing init with
  | nil => simp
  | cons r t ih =>
    simp only [List.foldl_cons]
    by_cases hskip : filterSkip c r = true
    · have hm : matchesFilter c r = false := by
        rw [matchesFilter_eq_not_skip, hskip]
        rfl
      have hfilter : List.filter (matchesFilter c) (r :: t)
          = List.filter (matchesFilter c) t := by
        simp [List.filter_cons, hm]
      rw [if_pos hskip, hfilter, ih]
    · have hb : filterSkip c r = false := by simpa using hskip
      have hm : matchesFilter c r = true := by
        rw [matchesFilter_eq_not_skip, hb]
        rfl
      have hfilter : List.filter (matchesFilter c) (r :: t)
          = r :: List.filter (matchesFilter c) t := by
        simp [List.filter_cons, hm]
      rw [if_neg hskip, hfilter]
      by_cases h1 : r.category = "收入"
      · have hs : signedValue r = r.amount := by simp [signedValue, h1]
        rw [if_pos h1, ih, List.map_cons, List.sum_cons, hs]
        ring
      · by_cases h2 : r.category = "支出"
        · have hs : signedValue r = -r.amount := by simp [signedValue, h1, h2]
          rw [if_neg h1, if_pos h2, ih, List.map_cons, List.sum_cons, hs]
          ring
        · have hs : signedValue r = 0 := by simp [signedValue, h1, h2]
          rw [if_neg h1, if_neg h2, ih, List.map_cons, List.sum_cons, hs]
          ring

/-- A store holding one income of 500 and one expense of 200. -/
def acct7 : Account :=
  Account.init (FileState.parsed
    [{ dateStr := some "2024-01-01", category := "收入", amount := 500,
       description := "s" },
     { dateStr := some "2024-01-02", category := "支出", amount := 200,
       description := "t" }])

/-- `calculate_total` as a signed sum over the filter-matching entries. -/
theorem calculate_total_eq (a : Account) (c : Option String) :
    calculate_total a c
      = ((a.records.filter (matchesFilter c)).map signedValue).sum := by
  rw [calculate_total, calculate_total_go]
  simp

/-- C7: `calculate_total` returns the signed sum over the entries matching
the optional category filter — income adds, expense subtracts, unrecognized
categories contribute nothing — and in particular an income of 500 plus an
expense of 200 total 300 with no filter and -200 with the 支出 filter.  The
function reads the store and returns a number; it performs no mutation. -/
theorem claim_C7_signed_total :
    (∀ (a : Account) (c : Option String),
      calculate_total a c
        = ((a.records.filter (matchesFilter c)).map signedValue).sum)
    ∧ calculate_total acct7 none = 300
    ∧ calculate_total acct7 (some "支出") = -200 := by
  have hrec : acct7.records
      = [{ date := ⟨2024, 1, 1⟩, category := "收入", amount := 500,
           description := "s" },
         { date := ⟨2024, 1, 2⟩, category := "支出", amount := 200,
           description := "t" }] := by
    decide
  refine ⟨fun a c => calculate_total_eq a c, ?_, ?_⟩
  · have hf : List.filter (matchesFilter none) acct7.records
        = acct7.records := by
      rw [hrec]
      decide
    rw [calculate_total_eq, hf, hrec]
    simp [signedValue]
    norm_num
  · have hf : List.filter (matchesFilter (some "支出")) acct7.records
        = [{ date := ⟨2024, 1, 2⟩, category := "支出", amount := 200,
             description := "t" }] := by
      rw [hrec]
      decide
    rw [calculate_total_eq, hf]
    simp [signedValue]

/-! ### C3: save / load round-trip -/

theorem digitVal_digitChar (k : Nat) (h : k < 10) :
    digitVal (digitChar k) = k := by
  interval_cases k <;> decide

theorem isDigitC_digitChar (k : Nat) (h : k < 10) :
    isDigitC (digitChar k) = true := by
  interval_cases k <;> decide

theorem digitChar_ne_dash (k : Nat) (h : k < 10) : ¬digitChar k = '-' := by
  interval_cases k <;> decide

theorem splitDash_append (xs rest : List Char) (h : ∀ c ∈ xs, ¬c = '-') :
    splitDash (xs ++ '-' :: rest) = xs :: splitDash rest := by
  induction xs with
  | nil => simp [splitDash]
  | cons c t ih =>
    have hc : ¬c = '-' := h c (List.mem_cons_self c t)
    have ht : splitDash (t.append ('-' :: rest)) = t :: splitDash rest :=
      ih fun c2 hc2 => h c2 (List.mem_cons_of_mem c hc2)
    simp only [List.cons_append, splitDash, if_neg hc]
    rw [ht]

theorem splitDash_nodash (xs : List Char) (h : ∀ c ∈ xs, ¬c = '-') :
    splitDash xs = [xs] := by
  induction xs with
  | nil => rfl
  | cons c t ih =>
    have hc : ¬c = '-' := h c (List.mem_cons_self c t)
    have ht := ih fun c2 hc2 => h c2 (List.mem_cons_of_mem c hc2)
    simp only [splitDash, if_neg hc, ht]

theorem pad4_nodash (n : Nat) : ∀ c ∈ pad4 n, ¬c = '-' := by
  intro c hc
  simp only [pad4, List.mem_cons, List.not_mem_nil, or_false] at hc
  rcases hc with h | h | h | h <;>
    exact h ▸ digitChar_ne_dash _ (Nat.mod_lt _ (by omega))

theorem pad2_nodash (n : Nat) : ∀ c ∈ pad2 n, ¬c = '-' := by
  intro c hc
  simp only [pad2, List.mem_cons, List.not_mem_nil, or_false] at hc
  rcases hc with h | h <;>
    exact h ▸ digitChar_ne_dash _ (Nat.mod_lt _ (by omega))

theorem parseYear_pad4 (y : Nat) (h : y ≤ 9999) :
    parseYear (pad4 y) = some y := by
  have h4 : ∀ k : Nat, k % 10 < 10 := fun k => Nat.mod_lt _ (by omega)
  simp only [pad4, parseYear, isDigitC_digitChar _ (h4 _), and_self, if_pos,
    digitVal_digitChar _ (h4 _), Option.some.injEq]
  omega

theorem parseSeg_pad2 (hi n : Nat) (h1 : 1 ≤ n) (h2 : n ≤ hi) (h3 : n ≤ 99) :
    parseSeg hi (pad2 n) = some n := by
  have h4 : ∀ k : Nat, k % 10 < 10 := fun k => Nat.mod_lt _ (by omega)
  have hval : digitVal (digitChar (n / 10 % 10)) * 10
      + digitVal (digitChar (n % 10)) = n := by
    rw [digitVal_digitChar _ (h4 _), digitVal_digitChar _ (h4 _)]
    omega
  simp only [pad2, parseSeg, isDigitC_digitChar _ (h4 _), hval, true_and]
  rw [if_pos ⟨h1, h2⟩]

theorem daysInMonth_le_31 (y m : Nat) : daysInMonth y m ≤ 31 := by
  rw [daysInMonth]
  split_ifs <;> omega

/-- Strict parsing is a left inverse of `%Y-%m-%d` formatting on valid
dates. -/
theorem parseDate_formatDate (d : Date) (h : d.Valid) :
    parseDate (formatDate d) = some d := by
  obtain ⟨hy1, hy2, hm1, hm2, hd1, hd2⟩ := h
  have htl : (formatDate d).toList
      = pad4 d.year ++ '-' :: (pad2 d.month ++ '-' :: pad2 d.day) := rfl
  rw [parseDate, htl, splitDash_append _ _ (pad4_nodash _),
    splitDash_append _ _ (pad2_nodash _), splitDash_nodash _ (pad2_nodash _)]
  simp only [parseYear_pad4 _ hy2, parseSeg_pad2 12 _ hm1 hm2 (by omega),
    parseSeg_pad2 31 _ hd1 (le_trans hd2 (daysInMonth_le_31 _ _)) (by
      have := daysInMonth_le_31 d.year d.month
      omega)]
  rw [if_pos ⟨hy1, hd2⟩]

/-- Loading back a just-serialized collection reproduces it exactly. -/
theorem parseRawRecords_serialize (rs : List Record)
    (h : ∀ r ∈ rs, r.date.Valid) :
    parseRawRecords (serialize rs) = rs := by
  induction rs with
  | nil => rfl
  | cons r t ih =>
    have hr := parseDate_formatDate r.date (h r (List.mem_cons_self r t))
    have ht : parseRawRecords (List.map serializeRecord t) = t :=
      ih fun r2 h2 => h r2 (List.mem_cons_of_mem r h2)
    simp only [serialize, List.map_cons, parseRawRecords, serializeRecord, hr,
      ht]

/-- C3: for a non-empty collection of entries with valid calendar dates (any
categories, amounts and descriptions), `save_records` followed by a fresh
`load_records` of the same path reproduces the entry sequence exactly,
element by element in order, in all four fields. -/
theorem claim_C3_roundtrip (a : Account) (fs : FS)
    (_hne : ¬a.records = []) (hv : ∀ r ∈ a.records, r.date.Valid) :
    load_records (save_records a fs).file = a.records :=
  parseRawRecords_serialize a.records hv

/-- C3 witness at a concrete two-entry store. -/
theorem claim_C3_witness :
    load_records (save_records acct1 fs0).file = acct1.records :=
  claim_C3_roundtrip acct1 fs0 (by decide) (by decide)

/-! ### C2: index / collection equivalence -/

/-- All records stored in the month index, bucket by bucket. -/
def bucketsUnion : DateIndex → List Record
  | [] => []
  | (_, b) :: t => b ++ bucketsUnion t

theorem foldl_indexStep_split (rs : List Record) (a : DateIndex)
    (b : CategoryIndex) :
    rs.foldl indexStep (a, b) = (rs.foldl dateStep a, rs.foldl catStep b) := by
  induction rs generalizing a b with
  | nil => rfl
  | cons r t ih => exact ih (dateStep a r) (catStep b r)

theorem build_indexes_eq (rs : List Record) :
    build_indexes rs = (buildDateIndex rs, buildCatIndex rs) :=
  foldl_indexStep_split rs [] { income := [], expense := [] }

/-- The store's indexes are exactly what a full replay of its record
sequence rebuilds. -/
def ReplayInv (a : Account) : Prop :=
  a.date_index = buildDateIndex a.records
  ∧ a.category_index = buildCatIndex a.records

theorem replayInv_init (f : FileState) : ReplayInv (Account.init f) := by
  constructor <;> simp [Account.init, build_indexes_eq]

theorem buildDateIndex_append (rs : List Record) (r : Record) :
    buildDateIndex (rs ++ [r]) = dateStep (buildDateIndex rs) r := by
  simp [buildDateIndex, List.foldl_append]

theorem buildCatIndex_append (rs : List Record) (r : Record) :
    buildCatIndex (rs ++ [r]) = catStep (buildCatIndex rs) r := by
  simp [buildCatIndex, List.foldl_append]

/-- The record `add_record` constructs and inserts on success. -/
def newRecord (date : Date) (category : String) (amount : Rat)
    (description : String) : Record :=
  { date := date, category := category, amount := amount,
    description := description }

/-- The store after a successful `add_record`. -/
def addedAccount (a : Account) (date : Date) (category : String)
    (amount : Rat) (description : String) : Account :=
  { records := a.records ++ [newRecord date category amount description],
    date_index := appendAt a.date_index (ym date)
      (newRecord date category amount description),
    category_index := catStep a.category_index
      (newRecord date category amount description) }

theorem add_record_ok (a : Account) (fs : FS) (date : Date)
    (category : String) (amount : Rat) (description : String)
    (h1 : category = "收入" ∨ category = "支出") (h2 : ¬amount ≤ 0) :
    add_record a fs date category amount description
      = Except.ok (addedAccount a date category amount description,
          save_records (addedAccount a date category amount description) fs) := by
  rw [add_record, if_neg (not_not_intro h1), if_neg h2]
  rfl

theorem applyAdd_of_error (st : Account × FS) (req : AddReq) (msg : String)
    (h : add_record st.1 st.2 req.date req.category req.amount req.description
      = Except.error msg) :
    applyAdd st req = st := by
  rw [applyAdd, h]

theorem applyAdd_of_ok (st : Account × FS) (req : AddReq)
    (st2 : Account × FS)
    (h : add_record st.1 st.2 req.date req.category req.amount req.description
      = Except.ok st2) :
    applyAdd st req = st2 := by
  rw [applyAdd, h]

theorem replayInv_applyAdd (st : Account × FS) (req : AddReq)
    (h : ReplayInv st.1) : ReplayInv (applyAdd st req).1 := by
  by_cases h1 : req.category = "收入" ∨ req.category = "支出"
  · by_cases h2 : req.amount ≤ 0
    · have he : add_record st.1 st.2 req.date req.category req.amount
          req.description = Except.error "金额必须为正数" := by
        rw [add_record, if_neg (not_not_intro h1), if_pos h2]
      rw [applyAdd_of_error st req _ he]
      exact h
    · rw [applyAdd_of_ok st req _
        (add_record_ok st.1 st.2 req.date req.category req.amount
          req.description h1 h2)]
      refine ⟨?_, ?_⟩
      · show appendAt st.1.date_index (ym req.date)
            (newRecord req.date req.category req.amount req.description)
          = buildDateIndex (st.1.records
              ++ [newRecord req.date req.category req.amount req.description])
        rw [h.1, buildDateIndex_append]
        rfl
      · show catStep st.1.category_index
            (newRecord req.date req.category req.amount req.description)
          = buildCatIndex (st.1.records
              ++ [newRecord req.date req.category req.amount req.description])
        rw [h.2, buildCatIndex_append]
  · have he : add_record st.1 st.2 req.date req.category req.amount
        req.description = Except.error "类别必须是收入或支出" := by
      rw [add_record, if_pos h1]
    rw [applyAdd_of_error st req _ he]
    exact h

theorem replayInv_applyAdds (st : Account × FS) (reqs : List AddReq)
    (h : ReplayInv st.1) : ReplayInv (applyAdds st reqs).1 := by
  induction reqs generalizing st with
  | nil => exact h
  | cons q t ih => exact ih (applyAdd st q) (replayInv_applyAdd st q h)

theorem bucketsUnion_appendAt (m : DateIndex) (k : YM) (r : Record) :
    (bucketsUnion (appendAt m k r)).Perm (r :: bucketsUnion m) := by
  induction m with
  | nil => exact List.Perm.refl _
  | cons p t ih =>
    obtain ⟨k2, b⟩ := p
    by_cases hk : k2 = k
    · rw [appendAt, if_pos hk]
      show ((b ++ [r]) ++ bucketsUnion t).Perm (r :: (b ++ bucketsUnion t))
      rw [List.append_assoc]
      exact List.perm_middle
    · rw [appendAt, if_neg hk]
      show (b ++ bucketsUnion (appendAt t k r)).Perm (r :: (b ++ bucketsUnion t))
      exact (ih.append_left b).trans List.perm_middle

theorem bucketsUnion_foldl_dateStep (rs : List Record) (m0 : DateIndex) :
    (bucketsUnion (rs.foldl dateStep m0)).Perm (bucketsUnion m0 ++ rs) := by
  induction rs generalizing m0 with
  | nil => simp
  | cons r t ih =>
    show (bucketsUnion (t.foldl dateStep (dateStep m0 r))).Perm
      (bucketsUnion m0 ++ r :: t)
    exact (ih (dateStep m0 r)).trans
      (((bucketsUnion_appendAt m0 (ym r.date) r).append_right t).trans
        List.perm_middle.symm)

theorem bucketsUnion_buildDateIndex (rs : List Record) :
    (bucketsUnion (buildDateIndex rs)).Perm rs := by
  simpa using bucketsUnion_foldl_dateStep rs []

theorem catIncome_foldl (rs : List Record) (ci0 : CategoryIndex) :
    (rs.foldl catStep ci0).income
      = ci0.income ++ rs.filter fun r => decide (r.category = "收入") := by
  induction rs generalizing ci0 with
  | nil => simp
  | cons r t ih =>
    rw [List.foldl_cons, ih, List.filter_cons]
    by_cases h1 : r.category = "收入"
    · simp [catStep, h1]
    · by_cases h2 : r.category = "支出" <;> simp [catStep, h1, h2]

theorem catExpense_foldl (rs : List Record) (ci0 : CategoryIndex) :
    (rs.foldl catStep ci0).expense
      = ci0.expense ++ rs.filter fun r => decide (r.category = "支出") := by
  induction rs generalizing ci0 with
  | nil => simp
  | cons r t ih =>
    rw [List.foldl_cons, ih, List.filter_cons]
    by_cases h1 : r.category = "收入"
    · simp [catStep, h1]
    · by_cases h2 : r.category = "支出" <;> simp [catStep, h1, h2]

theorem filter_or_perm (p q : Record → Bool) (rs : List Record)
    (hdisj : ∀ r, p r = true → q r = false) :
    (rs.filter p ++ rs.filter q).Perm (rs.filter fun r => p r || q r) := by
  induction rs with
  | nil => exact List.Perm.refl _
  | cons r t ih =>
    cases hp : p r with
    | true =>
      have hq := hdisj r hp
      simp only [List.filter_cons, hp, hq, Bool.true_or, if_pos, if_neg,
        Bool.false_eq_true, not_false_iff, List.cons_append]
      exact ih.cons r
    | false =>
      cases hq : q r with
      | true =>
        simp only [List.filter_cons, hp, hq, Bool.false_or, if_pos, if_neg,
          Bool.false_eq_true, not_false_iff]
        exact List.perm_middle.trans (ih.cons r)
      | false =>
        simpa [List.filter_cons, hp, hq] using ih

theorem catUnion_build_perm (rs : List Record) :
    ((buildCatIndex rs).income ++ (buildCatIndex rs).expense).Perm
      (rs.filter fun r => decide (r.category = "收入" ∨ r.category = "支出")) := by
  have hfe : (rs.filter fun r =>
        decide (r.category = "收入") || decide (r.category = "支出"))
      = rs.filter fun r => decide (r.category = "收入" ∨ r.category = "支出") :=
    List.filter_congr fun r _ => (Bool.decide_or _ _).symm
  have hdisj : ∀ r : Record, decide (r.category = "收入") = true →
      decide (r.category = "支出") = false := by
    intro r h
    rw [decide_eq_true_iff] at h
    simp [h]
  have e1 : (buildCatIndex rs).income
      = rs.filter fun r => decide (r.category = "收入") := by
    rw [buildCatIndex, catIncome_foldl]
    rfl
  have e2 : (buildCatIndex rs).expense
      = rs.filter fun r => decide (r.category = "支出") := by
    rw [buildCatIndex, catExpense_foldl]
    rfl
  rw [e1, e2, ← hfe]
  exact filter_or_perm _ _ rs hdisj

/-- C2: after construction (load plus one-pass index build) and after any
sequence of `add_record` calls (failed ones change nothing), the multiset of
entries over all month-index buckets equals the full record collection, the
multiset over the category-index buckets equals the sub-collection of
records with a recognized category, and both indexes equal exactly what a
full replay of the record sequence rebuilds. -/
theorem claim_C2_index_equivalence (f : FileState) (fs : FS)
    (reqs : List AddReq) :
    (bucketsUnion (applyAdds (Account.init f, fs) reqs).1.date_index).Perm
      (applyAdds (Account.init f, fs) reqs).1.records
    ∧ ((applyAdds (Account.init f, fs) reqs).1.category_index.income
        ++ (applyAdds (Account.init f, fs) reqs).1.category_index.expense).Perm
      ((applyAdds (Account.init f, fs) reqs).1.records.filter
        fun r => decide (r.category = "收入" ∨ r.category = "支出"))
    ∧ (applyAdds (Account.init f, fs) reqs).1.date_index
        = buildDateIndex (applyAdds (Account.init f, fs) reqs).1.records
    ∧ (applyAdds (Account.init f, fs) reqs).1.category_index
        = buildCatIndex (applyAdds (Account.init f, fs) reqs).1.records := by
  obtain ⟨h1, h2⟩ := replayInv_applyAdds (Account.init f, fs) reqs
    (replayInv_init f)
  refine ⟨?_, ?_, h1, h2⟩
  · rw [h1]
    exact bucketsUnion_buildDateIndex _
  · rw [h2]
    exact catUnion_build_perm _

/-! ### C5: completeness of the month-bucket translation -/

theorem getBucket_appendAt (m : DateIndex) (k k2 : YM) (r : Record) :
    getBucket (appendAt m k r) k2
      = if k2 = k then getBucket m k2 ++ [r] else getBucket m k2 := by
  induction m with
  | nil =>
    by_cases h : k2 = k
    · subst h
      simp [appendAt, getBucket]
    · have h2 : ¬k = k2 := fun he => h he.symm
      simp [appendAt, getBucket, h, h2]
  | cons p t ih =>
    obtain ⟨a, b⟩ := p
    by_cases hak : a = k
    · subst hak
      by_cases hak2 : a = k2
      · subst hak2
        simp [appendAt, getBucket]
      · have h2 : ¬k2 = a := fun he => hak2 he.symm
        simp [appendAt, getBucket, hak2, h2]
    · by_cases hak2 : a = k2
      · subst hak2
        simp [appendAt, getBucket, hak]
      · simp [appendAt, getBucket, hak, hak2, ih]

theorem getBucket_foldl_dateStep (rs : List Record) (m0 : DateIndex) (k : YM) :
    getBucket (rs.foldl dateStep m0) k
      = getBucket m0 k ++ rs.filter fun r => decide (ym r.date = k) := by
  induction rs generalizing m0 with
  | nil => simp
  | cons r t ih =>
    rw [List.foldl_cons, List.filter_cons]
    show getBucket (t.foldl dateStep (appendAt m0 (ym r.date) r)) k = _
    rw [ih, getBucket_appendAt]
    by_cases h : k = ym r.date
    · have h2 : decide (ym r.date = k) = true := decide_eq_true h.symm
      rw [if_pos h, h2]
      simp
    · have h2 : decide (ym r.date = k) = false :=
        decide_eq_false fun he => h he.symm
      rw [if_neg h, h2]
      simp

theorem getBucket_buildDateIndex (rs : List Record) (k : YM) :
    getBucket (buildDateIndex rs) k
      = rs.filter fun r => decide (ym r.date = k) := by
  simpa using getBucket_foldl_dateStep rs [] k

theorem getBucket_of_hasKey_false (m : DateIndex) (k : YM)
    (h : hasKey m k = false) : getBucket m k = [] := by
  induction m with
  | nil => rfl
  | cons p t ih =>
    obtain ⟨a, b⟩ := p
    by_cases hak : a = k
    · rw [hasKey, if_pos hak] at h
      exact absurd h (by simp)
    · rw [hasKey, if_neg hak] at h
      rw [getBucket, if_neg hak]
      exact ih h

/-- The candidate records the both-bounds branch of `query_records` gathers
from the month index over a key list. -/
def collectBuckets (m : DateIndex) : List YM → List Record
  | [] => []
  | k :: ks =>
    (if hasKey m k = true then getBucket m k else []) ++ collectBuckets m ks

theorem query_foldl_eq_collectBuckets (m : DateIndex) (ks : List YM)
    (acc : List Record) :
    ks.foldl
      (fun acc k =>
        if hasKey m k = true then acc ++ getBucket m k else acc) acc
      = acc ++ collectBuckets m ks := by
  induction ks generalizing acc with
  | nil => simp [collectBuckets]
  | cons k t ih =>
    rw [List.foldl_cons, collectBuckets]
    by_cases h : hasKey m k = true
    · rw [if_pos h, if_pos h, ih, List.append_assoc]
    · rw [if_neg h, if_neg h, ih, List.nil_append]

/-- Union of the buckets of a key list under a bucket function. -/
def keyedUnion (f : YM → List Record) : List YM → List Record
  | [] => []
  | k :: ks => f k ++ keyedUnion f ks

theorem collectBuckets_eq_keyedUnion (m : DateIndex) (ks : List YM) :
    collectBuckets m ks = keyedUnion (getBucket m) ks := by
  induction ks with
  | nil => rfl
  | cons k t ih =>
    rw [collectBuckets, keyedUnion, ih]
    by_cases h : hasKey m k = true
    · rw [if_pos h]
    · rw [if_neg h, getBucket_of_hasKey_false m k (by simpa using h)]

theorem keyedUnion_congr (f g : YM → List Record) (ks : List YM)
    (h : ∀ k, f k = g k) : keyedUnion f ks = keyedUnion g ks := by
  induction ks with
  | nil => rfl
  | cons k t ih => rw [keyedUnion, keyedUnion, h k, ih]

theorem keyedUnion_filter_perm (f : Record → YM) (rs : List Record)
    (keys : List YM) (hnd : keys.Nodup) :
    (keyedUnion (fun k => rs.filter fun r => decide (f r = k)) keys).Perm
      (rs.filter fun r => decide (f r ∈ keys)) := by
  induction keys with
  | nil => simp [keyedUnion]
  | cons k ks ih =>
    rw [List.nodup_cons] at hnd
    have hdisj : ∀ r : Record, decide (f r = k) = true →
        decide (f r ∈ ks) = false := by
      intro r h
      rw [decide_eq_true_iff] at h
      exact decide_eq_false fun hmem => hnd.1 (h ▸ hmem)
    have step3 : (rs.filter fun r => decide (f r = k) || decide (f r ∈ ks))
        = rs.filter fun r => decide (f r ∈ k :: ks) :=
      List.filter_congr fun r _ => by
        rw [← Bool.decide_or]
        exact decide_eq_decide.mpr List.mem_cons.symm
    rw [keyedUnion, ← step3]
    exact ((ih hnd.2).append_left _).trans (filter_or_perm _ _ rs hdisj)

theorem ymIdx_nextMonthFirst (c : Date) (h : c.month ≤ 12) :
    ymIdx (nextMonthFirst c) = ymIdx c + 1 := by
  rw [nextMonthFirst]
  split_ifs with h2 <;> (simp only [ymIdx]; omega)

theorem nextMonthFirst_shape (c : Date) :
    1 ≤ (nextMonthFirst c).month ∧ (nextMonthFirst c).month ≤ 12
    ∧ (nextMonthFirst c).day = 1 := by
  rw [nextMonthFirst]
  split_ifs with h <;> (simp; try omega)

theorem mem_monthKeysAux_ge (n : Nat) (c e : Date) (k : YM)
    (hm : c.month ≤ 12) (h : k ∈ monthKeysAux n c e) :
    ymIdx c ≤ k.1 * 12 + k.2 := by
  induction n generalizing c with
  | zero => exact absurd h (List.not_mem_nil k)
  | succ n ih =>
    rw [monthKeysAux] at h
    split at h
    · rcases List.mem_cons.mp h with h2 | h2
      · subst h2
        simp [ym, ymIdx]
      · have h3 := ih (nextMonthFirst c) (nextMonthFirst_shape c).2.1 h2
        rw [ymIdx_nextMonthFirst c hm] at h3
        omega
    · exact absurd h (List.not_mem_nil k)

theorem monthKeysAux_nodup (n : Nat) (c e : Date) (hm : c.month ≤ 12) :
    (monthKeysAux n c e).Nodup := by
  induction n generalizing c with
  | zero => exact List.nodup_nil
  | succ n ih =>
    rw [monthKeysAux]
    split
    · rw [List.nodup_cons]
      refine ⟨fun hmem => ?_, ih (nextMonthFirst c) (nextMonthFirst_shape c).2.1⟩
      have h3 := mem_monthKeysAux_ge n (nextMonthFirst c) e (ym c)
        (nextMonthFirst_shape c).2.1 hmem
      rw [ymIdx_nextMonthFirst c hm] at h3
      simp only [ym, ymIdx] at h3
      omega
    · exact List.nodup_nil

theorem ymIdx_le_of_le (c d : Date) (h : Date.le c d) (hc : c.month ≤ 12)
    (hd : 1 ≤ d.month) : ymIdx c ≤ ymIdx d := by
  rw [Date.le] at h
  rw [ymIdx, ymIdx]
  rcases h with h | ⟨h1, h2 | ⟨h2, h3⟩⟩ <;> omega

theorem le_of_first_of_month (x d : Date) (hx : x.day = 1)
    (hxm1 : 1 ≤ x.month) (hxm2 : x.month ≤ 12) (hdm : 1 ≤ d.month)
    (hdm2 : d.month ≤ 12) (hdd : 1 ≤ d.day)
    (hle : ymIdx x ≤ ymIdx d) : Date.le x d := by
  rw [ymIdx, ymIdx] at hle
  rw [Date.le]
  by_cases hy : x.year < d.year
  · exact Or.inl hy
  · right
    have hy2 : x.year = d.year := by omega
    refine ⟨hy2, ?_⟩
    by_cases hm : x.month < d.month
    · exact Or.inl hm
    · right
      exact ⟨by omega, by omega⟩

theorem Date.le_trans (a b c : Date) (h1 : Date.le a b) (h2 : Date.le b c) :
    Date.le a c := by
  rw [Date.le] at *
  rcases h1 with h1 | ⟨h1, h3 | ⟨h3, h4⟩⟩ <;>
    rcases h2 with h2 | ⟨h2, h5 | ⟨h5, h6⟩⟩ <;>
      first
        | (left; omega)
        | (right; constructor; omega; left; omega)
        | (right; constructor; omega; right; constructor; omega; omega)

theorem ym_eq_of_ymIdx_eq (c d : Date) (hc1 : 1 ≤ c.month)
    (hc2 : c.month ≤ 12) (hd1 : 1 ≤ d.month) (hd2 : d.month ≤ 12)
    (h : ymIdx c = ymIdx d) : ym c = ym d := by
  rw [ymIdx, ymIdx] at h
  have h2 : c.year = d.year ∧ c.month = d.month := by omega
  rw [ym, ym, h2.1, h2.2]

/-- Coverage of the month-key enumeration: any month between a loop state
`c` and the end date that contains a date `d` with `c ≤ d ≤ e` is emitted,
provided the fuel covers the remaining month distance. -/
theorem mem_monthKeysAux (n : Nat) (c e d : Date)
    (hcm1 : 1 ≤ c.month) (hcm2 : c.month ≤ 12)
    (hdm1 : 1 ≤ d.month) (hdm2 : d.month ≤ 12) (hdd : 1 ≤ d.day)
    (hem1 : 1 ≤ e.month)
    (h1 : Date.le c d) (h2 : Date.le d e)
    (hfuel : ymIdx e + 1 - ymIdx c ≤ n) :
    ym d ∈ monthKeysAux n c e := by
  induction n generalizing c with
  | zero =>
    exfalso
    have ha := ymIdx_le_of_le c d h1 hcm2 hdm1
    have hb := ymIdx_le_of_le d e h2 hdm2 hem1
    omega
  | succ n ih =>
    have hce : Date.le c e := Date.le_trans c d e h1 h2
    rw [monthKeysAux, if_pos (by rw [Date.leb]; exact decide_eq_true hce)]
    by_cases heq : ym c = ym d
    · exact heq ▸ List.mem_cons_self _ _
    · refine List.mem_cons_of_mem _ (ih (nextMonthFirst c)
        (nextMonthFirst_shape c).1 (nextMonthFirst_shape c).2.1 ?_ ?_)
      · have hlt : ymIdx c < ymIdx d := by
          have ha := ymIdx_le_of_le c d h1 hcm2 hdm1
          rcases Nat.lt_or_ge (ymIdx c) (ymIdx d) with h | h
          · exact h
          · exact absurd (ym_eq_of_ymIdx_eq c d hcm1 hcm2 hdm1 hdm2
              (by omega)) heq
        exact le_of_first_of_month (nextMonthFirst c) d
          (nextMonthFirst_shape c).2.2 (nextMonthFirst_shape c).1
          (nextMonthFirst_shape c).2.1 hdm1 hdm2 hdd
          (by rw [ymIdx_nextMonthFirst c hcm2]; omega)
      · have hb := ymIdx_le_of_le d e h2 hdm2 hem1
        have ha := ymIdx_le_of_le c d h1 hcm2 hdm1
        rw [ymIdx_nextMonthFirst c hcm2]
        omega

theorem mem_monthKeys (s e d : Date) (hs : s.MDValid) (he : e.MDValid)
    (hdm1 : 1 ≤ d.month) (hdm2 : d.month ≤ 12) (hdd : 1 ≤ d.day)
    (h1 : Date.le s d) (h2 : Date.le d e) :
    ym d ∈ monthKeys s e :=
  mem_monthKeysAux (ymIdx e + 1 - ymIdx s) s e d hs.1 hs.2.1 hdm1 hdm2 hdd
    he.1 h1 h2 (Nat.le_refl _)

/-- C5: for a store whose month index is exactly the replay of its record
collection (the index/collection equivalence), a query with both bounds
given (here `startDate <= endDate`, dates valid, as the program's date type
guarantees) and no category filter returns exactly — as a multiset — the
records whose date lies in the inclusive day-level range: the month-key
enumeration loses no in-range entry. -/
theorem claim_C5_month_enumeration_complete (a : Account) (s e : Date)
    (hidx : a.date_index = buildDateIndex a.records)
    (hvalid : ∀ r ∈ a.records, r.date.MDValid)
    (hs : s.MDValid) (he : e.MDValid) (_hse : Date.le s e) :
    (query_records a (some s) (some e) none).Perm
      (a.records.filter fun r => Date.leb s r.date && Date.leb r.date e) := by
  have hq : query_records a (some s) (some e) none
      = ((monthKeys s e).foldl
          (fun acc k =>
            if hasKey a.date_index k = true then acc ++ getBucket a.date_index k
            else acc) []).filter
          (fun r => Date.leb s r.date && Date.leb r.date e) := rfl
  rw [hq, query_foldl_eq_collectBuckets, List.nil_append,
    collectBuckets_eq_keyedUnion, hidx,
    keyedUnion_congr (getBucket (buildDateIndex a.records))
      (fun k => a.records.filter fun r => decide (ym r.date = k))
      (monthKeys s e) (getBucket_buildDateIndex a.records)]
  have hnd : (monthKeys s e).Nodup :=
    monthKeysAux_nodup (ymIdx e + 1 - ymIdx s) s e hs.2.1
  have hperm := (keyedUnion_filter_perm (fun r => ym r.date) a.records
    (monthKeys s e) hnd).filter
    (fun r => Date.leb s r.date && Date.leb r.date e)
  refine hperm.trans ?_
  rw [List.filter_filter]
  have hcongr : ∀ r ∈ a.records,
      ((Date.leb s r.date && Date.leb r.date e)
        && decide (ym r.date ∈ monthKeys s e))
      = (Date.leb s r.date && Date.leb r.date e) := by
    intro r hr
    cases hp : (Date.leb s r.date && Date.leb r.date e) with
    | false => rw [Bool.false_and]
    | true =>
      rw [Bool.and_eq_true] at hp
      have hp1 : Date.le s r.date := of_decide_eq_true hp.1
      have hp2 : Date.le r.date e := of_decide_eq_true hp.2
      have hv := hvalid r hr
      have hmem := mem_monthKeys s e r.date hs he hv.1 hv.2.1 hv.2.2.1 hp1 hp2
      rw [decide_eq_true hmem, Bool.true_and]
  rw [List.filter_congr hcongr]

/-- C5 witness: the spec's date-range example on a concrete store. -/
theorem claim_C5_witness :
    (query_records acct1 (some ⟨2024, 2, 1⟩) (some ⟨2024, 4, 1⟩) none).Perm
      (acct1.records.filter fun r =>
        Date.leb ⟨2024, 2, 1⟩ r.date && Date.leb r.date ⟨2024, 4, 1⟩) :=
  claim_C5_month_enumeration_complete acct1 ⟨2024, 2, 1⟩ ⟨2024, 4, 1⟩
    (by decide) (by decide) (by decide) (by decide) (by decide)

end Ledger
